import Mathlib

/-!
Verification of the hyprwhspr voice-dictation daemon.

Shallow embedding of the program's core, translated from the Python
sources:

* `src/lib/src/text_injector.py` — text normalizer (`_preprocess_text`,
  `_apply_word_overrides`), modelled as functions on `List Char`;
* `src/lib/src/global_shortcuts.py` — hotkey chord parsing and the
  key-event/debounce state machine;
* `src/lib/src/whisper_manager.py` — transcription adapter
  (`transcribe_audio`, `_run_whisper`) with an explicit file-system
  state and an abstract backend outcome;
* `src/lib/main.py` — the dictation controller's trigger handling
  (`_on_shortcut_triggered`, `_start_recording`, `_stop_recording`,
  `_process_audio`) as a step function over an event trace.

Python strings are modelled as `List Char`; `re.sub` with the patterns
the program uses (a literal phrase guarded by word boundaries, with
`re.IGNORECASE`) is modelled by `subRule`.  Character classes
(`\w`, `str.lower`, `str.strip`) are modelled on ASCII; the program's
rule literals are all ASCII.  Timestamps (`time.time()`) are modelled
as rationals.
-/

namespace Hyprwhspr

/-! ### Character classes -/

/-- Python regex `\w` (ASCII fragment): letters, digits, underscore. -/
def isWordChar (c : Char) : Bool := c.isAlpha || c.isDigit || c == '_'

/-- Characters matched by the regex class `[ \t]` in `_preprocess_text`. -/
def isHorizWs (c : Char) : Bool := c == ' ' || c == '\t'

/-- Characters removed by Python `str.strip()` (ASCII fragment). -/
def isPyWhitespace (c : Char) : Bool :=
  c == ' ' || c == '\t' || c == '\n' || c == '\r' || c == '\x0b' || c == '\x0c'

/-! ### `re.sub` for the program's patterns

Every pattern that `text_injector.py` feeds to `re.sub` is a literal
sequence of characters, optionally preceded by `\b`, and followed by
`\b` — except the (buggy) rule `r'\new line\b'`, whose first character
is a literal newline and which has no leading `\b`.  `subRule` embeds
exactly this family: scan left to right over the original text,
replace every non-overlapping case-insensitive occurrence whose
boundary conditions hold, and never rescan replacement text (the
semantics of `re.sub`). -/

structure SubRule where
  /-- whether the pattern starts with `\b` -/
  leadB : Bool
  /-- the literal characters of the pattern -/
  lit : List Char
  /-- the replacement text (taken literally) -/
  repl : List Char

/-- Word-ness of an optional character; `none` (string edge) is non-word. -/
def wordAt : Option Char → Bool
  | some c => isWordChar c
  | none => false

/-- `\b` holds between two (optional) characters iff their word-ness differs. -/
def isBoundary (a b : Option Char) : Bool := wordAt a != wordAt b

/-- Case-insensitive literal match at the head of the text; returns the
remaining text on success. -/
def matchCaseless : List Char → List Char → Option (List Char)
  | [], rest => some rest
  | _ :: _, [] => none
  | p :: ps, c :: cs => if c.toLower == p.toLower then matchCaseless ps cs else none

/-- Try to match rule `r` at the current position.  `prev` is the
character just before the position in the original text. -/
def tryRuleAt (r : SubRule) (prev : Option Char) (t : List Char) : Option (List Char) :=
  if r.leadB && !isBoundary prev t.head? then none
  else
    match matchCaseless r.lit t with
    | none => none
    | some rest =>
      -- trailing `\b`: the last matched character is the last pattern
      -- character up to case, and case does not change word-ness
      if isBoundary (some (r.lit.getLastD ' ')) rest.head? then some rest else none

/-- One left-to-right substitution pass, fuelled by the text length
(each step consumes at least one character of the original text). -/
def subAux (r : SubRule) : Nat → Option Char → List Char → List Char
  | 0, _, t => t
  | _ + 1, _, [] => []
  | fuel + 1, prev, c :: cs =>
    match tryRuleAt r prev (c :: cs) with
    | some rest =>
      -- only the word-ness of the previous character matters below,
      -- and it is case-invariant, so the last literal character stands
      -- in for the last matched character
      r.repl ++ subAux r fuel (some (r.lit.getLastD c)) rest
    | none => c :: subAux r fuel (some c) cs

/-- `re.sub` of rule `r` over `t` (case-insensitive, non-overlapping,
no rescanning of replacements). -/
def subRule (r : SubRule) (t : List Char) : List Char := subAux r t.length none t

/-! ### The fixed replacement table of `_preprocess_text`

The rules appear in the insertion order of the Python dict
`replacements` (dicts iterate in insertion order). -/

/-- A `\b…\b`-guarded literal phrase rule. -/
def wordRule (p : String) (repl : List Char) : SubRule := ⟨true, p.toList, repl⟩

/-- The source's rule `r'\new line\b': '\n'`.  In a regex, `\n` is a
literal newline (not `\b` + `n`), so the pattern is: a newline
character, then `ew line`, then `\b` — with no leading boundary. -/
def newLineRule : SubRule := ⟨false, '\n' :: ("ew line").toList, ['\n']⟩

def builtinReplacements : List SubRule := [
  wordRule ("period") ['.'],
  wordRule ("comma") [','],
  wordRule ("question mark") ['?'],
  wordRule ("exclamation mark") ['!'],
  wordRule ("colon") [':'],
  wordRule ("semicolon") [';'],
  newLineRule,
  wordRule ("tab") ['\t'],
  wordRule ("dash") ['-'],
  wordRule ("underscore") ['_'],
  wordRule ("open paren") ['('],
  wordRule ("close paren") [')'],
  wordRule ("open bracket") ['['],
  wordRule ("close bracket") [']'],
  wordRule ("open brace") ['\x7b'],
  wordRule ("close brace") ['\x7d'],
  wordRule ("at symbol") ['@'],
  wordRule ("hash") ['#'],
  wordRule ("dollar sign") ['$'],
  wordRule ("percent") ['%'],
  wordRule ("caret") ['^'],
  wordRule ("ampersand") ['&'],
  wordRule ("asterisk") ['*'],
  wordRule ("plus") ['+'],
  wordRule ("equals") ['='],
  wordRule ("less than") ['<'],
  wordRule ("greater than") ['>'],
  wordRule ("slash") ['/'],
  wordRule ("backslash") ['\\'],
  wordRule ("pipe") ['|'],
  wordRule ("tilde") ['~'],
  wordRule ("grave") ['\x60'],
  wordRule ("quote") ['"'],
  wordRule ("apostrophe") ['\x27']
]

/-! ### `_apply_word_overrides` -/

/-- The pattern `r'\b' + re.escape(original) + r'\b'` built for an
override entry (`re.escape` makes the original a literal). -/
def overrideRule (o r : List Char) : SubRule := ⟨true, o, r⟩

/-- `_apply_word_overrides`: apply each `(original, replacement)` entry
in table order; an entry whose original or replacement is the empty
string is skipped (`if original and replacement:`). -/
def applyWordOverrides (ov : List (List Char × List Char)) (t : List Char) : List Char :=
  match ov with
  | [] => t
  | (o, r) :: rest =>
    applyWordOverrides rest
      (if !o.isEmpty && !r.isEmpty then subRule (overrideRule o r) t else t)

/-! ### The whitespace phases of `_preprocess_text` -/

/-- `text.replace('\r\n', ' ').replace('\r', ' ').replace('\n', ' ')`:
every line-break variant becomes a single space (a `\r\n` pair pairs up
greedily left to right, exactly as sequential `str.replace` does). -/
def collapseLineBreaks : List Char → List Char
  | [] => []
  | [c] => if c == '\r' || c == '\n' then [' '] else [c]
  | c1 :: c2 :: cs =>
    if c1 == '\r' && c2 == '\n' then ' ' :: collapseLineBreaks cs
    else if c1 == '\r' || c1 == '\n' then ' ' :: collapseLineBreaks (c2 :: cs)
    else c1 :: collapseLineBreaks (c2 :: cs)

/-- `re.sub(r'[ \t]+', ' ', ·)`: a run of spaces/tabs becomes one
space (all but the last character of a run are dropped, the last is
emitted as a space). -/
def collapseHorizWs : List Char → List Char
  | [] => []
  | [c] => if isHorizWs c then [' '] else [c]
  | c1 :: c2 :: cs =>
    if isHorizWs c1 then
      if isHorizWs c2 then collapseHorizWs (c2 :: cs)
      else ' ' :: collapseHorizWs (c2 :: cs)
    else c1 :: collapseHorizWs (c2 :: cs)

/-- Does the text start with zero or more spaces followed by a newline? -/
def spacesThenNewline (l : List Char) : Bool :=
  match l.dropWhile (fun c => c == ' ') with
  | c :: _ => c == '\n'
  | [] => false

/-- Delete every space that is followed, through spaces, by a newline
(the `' *'` before the `\n` of `r' *\n *'`). -/
def dropSpacesBeforeNewline : List Char → List Char
  | [] => []
  | c :: cs =>
    if c == ' ' && spacesThenNewline cs then dropSpacesBeforeNewline cs
    else c :: dropSpacesBeforeNewline cs

/-- Delete every space preceded, through spaces, by a newline (the
`' *'` after the `\n`); the flag records whether the scan is inside
such a run. -/
def dropSpacesAfterNewline : Bool → List Char → List Char
  | _, [] => []
  | afterNl, c :: cs =>
    if afterNl && c == ' ' then dropSpacesAfterNewline true cs
    else c :: dropSpacesAfterNewline (c == '\n') cs

/-- `re.sub(r' *\n *', '\n', ·)`: since each match contains exactly one
newline and greedy `' *'` runs never overlap, the substitution deletes
exactly the spaces whose space-run touches a newline. -/
def collapseSpacesAroundNewlines (l : List Char) : List Char :=
  dropSpacesAfterNewline false (dropSpacesBeforeNewline l)

/-- Trailing part of Python `str.strip()`: drop trailing whitespace. -/
def stripRight : List Char → List Char
  | [] => []
  | c :: cs =>
    match stripRight cs with
    | [] => if isPyWhitespace c then [] else [c]
    | r :: rs => c :: r :: rs

/-- Python `str.strip()`. -/
def pyStrip (l : List Char) : List Char := stripRight (l.dropWhile isPyWhitespace)

/-! ### `_preprocess_text` -/

/-- `TextInjector._preprocess_text`, parameterized by the word-override
table that `_apply_word_overrides` reads from the configuration. -/
def preprocessText (ov : List (List Char × List Char)) (text : List Char) : List Char :=
  let s1 := collapseLineBreaks text
  let s2 := applyWordOverrides ov s1
  let s3 := builtinReplacements.foldl (fun acc r => subRule r acc) s2
  let s4 := collapseHorizWs s3
  let s5 := collapseSpacesAroundNewlines s4
  pyStrip s5

/-- The whitespace-normalization tail of `_preprocess_text` (steps 4–5
of the pipeline plus the final `strip()`). -/
def wsPhase (l : List Char) : List Char :=
  pyStrip (collapseSpacesAroundNewlines (collapseHorizWs l))

/-- Does `p` hold for every two adjacent characters? -/
def pairwiseOk (p : Char → Char → Bool) : List Char → Bool
  | a :: b :: l => p a b && pairwiseOk p (b :: l)
  | _ => true

/-- No two adjacent spaces. -/
def noDoubleSpace (l : List Char) : Bool :=
  pairwiseOk (fun a b => !(a == ' ' && b == ' ')) l

/-- No space directly before a newline. -/
def noSpaceBeforeNl (l : List Char) : Bool :=
  pairwiseOk (fun a b => !(a == ' ' && b == '\n')) l

/-- No space directly after a newline. -/
def noSpaceAfterNl (l : List Char) : Bool :=
  pairwiseOk (fun a b => !(a == '\n' && b == ' ')) l

/-! ### `global_shortcuts.py` — key-specification parsing

Key codes are the Linux evdev codes used by the source's
`ecodes.KEY_*` constants. -/

def toLowerList (l : List Char) : List Char := l.map Char.toLower

/-- `function_key_map` of `_string_to_keycode`. -/
def functionKeyMap : List (List Char × Nat) := [
  (("f1").toList, 59), (("f2").toList, 60), (("f3").toList, 61), (("f4").toList, 62),
  (("f5").toList, 63), (("f6").toList, 64), (("f7").toList, 65), (("f8").toList, 66),
  (("f9").toList, 67), (("f10").toList, 68), (("f11").toList, 87), (("f12").toList, 88)]

/-- `modifier_key_map` of `_string_to_keycode`. -/
def modifierKeyMap : List (List Char × Nat) := [
  (("ctrl").toList, 29), (("control").toList, 29), (("alt").toList, 56),
  (("shift").toList, 42), (("super").toList, 125), (("windows").toList, 125),
  (("win").toList, 125), (("meta").toList, 125), (("cmd").toList, 125)]

/-- `char_key_map` of `_string_to_keycode`. -/
def charKeyMap : List (List Char × Nat) := [
  (("a").toList, 30), (("b").toList, 48), (("c").toList, 46), (("d").toList, 32),
  (("e").toList, 18), (("f").toList, 33), (("g").toList, 34), (("h").toList, 35),
  (("i").toList, 23), (("j").toList, 36), (("k").toList, 37), (("l").toList, 38),
  (("m").toList, 50), (("n").toList, 49), (("o").toList, 24), (("p").toList, 25),
  (("q").toList, 16), (("r").toList, 19), (("s").toList, 31), (("t").toList, 20),
  (("u").toList, 22), (("v").toList, 47), (("w").toList, 17), (("x").toList, 45),
  (("y").toList, 21), (("z").toList, 44)]

/-- `GlobalShortcuts._string_to_keycode`: lowercase and strip, then try
the function-key, modifier and character maps in that order. -/
def stringToKeycode (s : List Char) : Option Nat :=
  let k := pyStrip (toLowerList s)
  match functionKeyMap.lookup k with
  | some c => some c
  | none =>
    match modifierKeyMap.lookup k with
    | some c => some c
    | none => charKeyMap.lookup k

/-- Python `set.add`; the set of key codes is modelled as a
duplicate-free list. -/
def insertKey (k : Nat) (s : List Nat) : List Nat := if k ∈ s then s else k :: s

/-- `GlobalShortcuts._parse_key_combination`: lowercase/strip, drop
angle brackets, split on `+`, parse each part, and fall back to F12
(code 88) when nothing parsed. -/
def parseKeyCombination (keyString : List Char) : List Nat :=
  let keyLower := pyStrip (toLowerList keyString)
  let keyLower := keyLower.filter (fun c => !(c == '<') && !(c == '>'))
  let parts := keyLower.splitOn '+'
  let keys := parts.foldl (fun acc part =>
    match stringToKeycode (pyStrip part) with
    | some k => insertKey k acc
    | none => acc) []
  if keys.isEmpty then [88] else keys

/-- The watcher state relevant to the bound chord. -/
structure GlobalShortcutsState where
  primaryKey : List Char
  targetKeys : List Nat

/-- `GlobalShortcuts.__init__`: `self.target_keys = self._parse_key_combination(primary_key)`. -/
def mkGlobalShortcuts (primaryKey : List Char) : GlobalShortcutsState :=
  ⟨primaryKey, parseKeyCombination primaryKey⟩

/-- `GlobalShortcuts.update_shortcut`: re-parse and install the new chord. -/
def updateShortcut (st : GlobalShortcutsState) (newKey : List Char) : GlobalShortcutsState :=
  { st with primaryKey := newKey, targetKeys := parseKeyCombination newKey }

/-! ### `global_shortcuts.py` — chord detection and debouncing

`time.time()` timestamps are modelled as rationals; the watcher state
carries `pressed_keys`, `last_trigger_time` (initially `0`) and the
list of timestamps at which the trigger callback fired. -/

structure ChordState where
  pressedKeys : List Nat
  lastTriggerTime : ℚ
  fires : List ℚ

def initChordState : ChordState := ⟨[], 0, []⟩

/-- `self.debounce_time = 0.5`. -/
def debounceTime : ℚ := 1 / 2

/-- A key-down or key-up hardware event with its arrival time. -/
inductive KeyEvent where
  | down (code : Nat) (t : ℚ)
  | up (code : Nat) (t : ℚ)

/-- `GlobalShortcuts._check_shortcut_combination`: fire iff the target
chord is a subset of the pressed keys and strictly more than the
debounce interval has passed since the last trigger. -/
def checkShortcutCombination (target : List Nat) (t : ℚ) (s : ChordState) : ChordState :=
  if target.all (fun k => decide (k ∈ s.pressedKeys)) then
    if debounceTime < t - s.lastTriggerTime then
      { s with lastTriggerTime := t, fires := s.fires ++ [t] }
    else s
  else s

/-- `GlobalShortcuts._process_event`: key-down adds the key and
re-checks the chord; key-up removes the key. -/
def processEvent (target : List Nat) (s : ChordState) : KeyEvent → ChordState
  | .down c t => checkShortcutCombination target t { s with pressedKeys := insertKey c s.pressedKeys }
  | .up c _ => { s with pressedKeys := s.pressedKeys.filter (fun k => !(k == c)) }

def runEvents (target : List Nat) (evs : List KeyEvent) : ChordState :=
  evs.foldl (processEvent target) initChordState

/-! ### `whisper_manager.py` — transcription adapter

The external backend is a black box: an abstract `BackendBehavior`
says how the `subprocess.run` call ends (exit code with stdout,
timeout, or a raised exception) and whether the run leaves the
`<audio>.txt` output artifact behind.  The file-system state tracks
the temporary WAV file and that artifact. -/

structure FsState where
  wavExists : Bool
  txtExists : Bool
deriving DecidableEq

inductive BackendOutcome where
  | completed (rc : Nat) (stdout : List Char)
  | timedOut
  | raised

structure BackendBehavior where
  outcome : BackendOutcome
  producesTxt : Bool
  txtContent : List Char

/-- `WhisperManager._run_whisper`: on exit code 0 read (and delete) the
txt artifact if present, else fall back to stdout; on non-zero exit,
timeout or exception return `""`.  Only the success-with-artifact path
deletes the artifact. -/
def runWhisper (b : BackendBehavior) (fs : FsState) : List Char × FsState :=
  let fs1 : FsState := { fs with txtExists := b.producesTxt }
  match b.outcome with
  | .completed 0 stdout =>
    if fs1.txtExists then (pyStrip b.txtContent, { fs1 with txtExists := false })
    else (pyStrip stdout, fs1)
  | .completed (_ + 1) _ => ([], fs1)
  | .timedOut => ([], fs1)
  | .raised => ([], fs1)

inductive TranscribeErr where
  | notInitialized
  | saveFailed

/-- `min_samples = int(sample_rate * 0.1)`; at the pipeline's fixed
16000 Hz rate the float product is exactly 1600.0, so truncation
agrees with natural division. -/
def minSamples (sampleRate : Nat) : Nat := sampleRate / 10

/-- `WhisperManager.transcribe_audio`.  `audioData` is the sample count
of the buffer (`none` = the buffer is absent), `saveOk` says whether
`_save_audio_as_wav` succeeds (an exception there propagates, after
the `finally` unlinks the WAV).  Returns the result (or the propagated
error), whether the backend was invoked, and the final file state. -/
def transcribeAudio (ready : Bool) (audioData : Option Nat) (sampleRate : Nat)
    (saveOk : Bool) (b : BackendBehavior) :
    Except TranscribeErr (List Char) × Bool × FsState :=
  if !ready then (.error .notInitialized, false, ⟨false, false⟩)
  else
    match audioData with
    | none => (.ok [], false, ⟨false, false⟩)
    | some len =>
      if len == 0 then (.ok [], false, ⟨false, false⟩)
      else if len < minSamples sampleRate then (.ok [], false, ⟨false, false⟩)
      else
        if saveOk then
          let r := runWhisper b ⟨true, false⟩
          (.ok (if r.1.isEmpty then [] else pyStrip r.1), true,
            { r.2 with wavExists := false })
        else (.error .saveFailed, false, ⟨false, false⟩)

/-! ### `main.py` — dictation controller

Each hotkey trigger runs `_on_shortcut_triggered` on its own dispatch
thread.  A trigger's handler is modelled as one atomic step up to the
blocking transcription call: the stop path flips `is_recording`, then
enters `_process_audio`, whose `is_processing` guard and
`is_processing = True` assignment happen at chain start; the long
chain body ends at a later `chainDone` event (the `finally` that
clears `is_processing`).  `activeChains` counts chains whose body is
currently executing; `recordingsStarted` counts `_start_recording`
effects.  The stop path is modelled with captured audio present (a
stop that captured nothing skips the chain, which only removes
chains). -/

structure AppState where
  isRecording : Bool
  isProcessing : Bool
  activeChains : Nat
  recordingsStarted : Nat
  chainsStarted : Nat
deriving DecidableEq

def initAppState : AppState := ⟨false, false, 0, 0, 0⟩

inductive CtrlEvent where
  | trigger
  | chainDone

/-- `HyprWhsprApp._start_recording` (up to its guard). -/
def startRecordingStep (s : AppState) : AppState :=
  if s.isRecording then s
  else { s with isRecording := true, recordingsStarted := s.recordingsStarted + 1 }

/-- Entry of `HyprWhsprApp._process_audio`: the `is_processing` guard,
then `is_processing = True` and the chain body begins. -/
def processAudioBegin (s : AppState) : AppState :=
  if s.isProcessing then s
  else { s with isProcessing := true, activeChains := s.activeChains + 1,
                chainsStarted := s.chainsStarted + 1 }

/-- `HyprWhsprApp._stop_recording` (with captured audio present). -/
def stopRecordingStep (s : AppState) : AppState :=
  if !s.isRecording then s
  else processAudioBegin { s with isRecording := false }

/-- One controller event: a hotkey trigger runs
`_on_shortcut_triggered`; `chainDone` is the `finally` of an active
processing chain. -/
def ctrlStep (s : AppState) : CtrlEvent → AppState
  | .trigger => if s.isRecording then stopRecordingStep s else startRecordingStep s
  | .chainDone =>
    if s.activeChains == 0 then s
    else { s with isProcessing := false, activeChains := s.activeChains - 1 }

def runCtrl (evs : List CtrlEvent) : AppState := evs.foldl ctrlStep initAppState

/-! ## Lemmas about the whitespace phase of the normalizer

These support the (amended) idempotence claim: the output of `wsPhase`
has no tab, no two adjacent spaces, no space adjacent to a newline,
and no leading or trailing whitespace — and on such text every stage
of `wsPhase` is the identity. -/

theorem pairwiseOk_cons_cons (p : Char → Char → Bool) (a b : Char) (l : List Char) :
    pairwiseOk p (a :: b :: l) = (p a b && pairwiseOk p (b :: l)) := rfl

theorem pairwiseOk_tail {p : Char → Char → Bool} {a : Char} {l : List Char}
    (h : pairwiseOk p (a :: l) = true) : pairwiseOk p l = true := by
  cases l with
  | nil => rfl
  | cons b m =>
    rw [pairwiseOk_cons_cons, Bool.and_eq_true] at h
    exact h.2

theorem pairwiseOk_head {p : Char → Char → Bool} {a b : Char} {l : List Char}
    (h : pairwiseOk p (a :: l) = true) (hb : l.head? = some b) : p a b = true := by
  cases l with
  | nil => simp at hb
  | cons c m =>
    rw [List.head?_cons, Option.some.injEq] at hb
    rw [pairwiseOk_cons_cons, Bool.and_eq_true] at h
    exact hb ▸ h.1

theorem pairwiseOk_cons_of_head {p : Char → Char → Bool} {a : Char} {l : List Char}
    (h : ∀ b, l.head? = some b → p a b = true) (hl : pairwiseOk p l = true) :
    pairwiseOk p (a :: l) = true := by
  cases l with
  | nil => rfl
  | cons b m =>
    rw [pairwiseOk_cons_cons, Bool.and_eq_true]
    exact ⟨h b rfl, hl⟩

theorem ne_tab_of_not_horiz {c : Char} (h : isHorizWs c = false) : c ≠ '\t' := by
  intro hc; subst hc; simp [isHorizWs] at h

theorem ne_space_of_not_horiz {c : Char} (h : isHorizWs c = false) : c ≠ ' ' := by
  intro hc; subst hc; simp [isHorizWs] at h

theorem eq_space_of_horiz {c : Char} (h : isHorizWs c = true) (ht : c ≠ '\t') : c = ' ' := by
  rcases (by simpa [isHorizWs] using h : c = ' ' ∨ c = '\t') with h1 | h2
  · exact h1
  · exact absurd h2 ht

theorem collapseHorizWs_cons_not_ws (c : Char) (cs : List Char) (h : isHorizWs c = false) :
    collapseHorizWs (c :: cs) = c :: collapseHorizWs cs := by
  cases cs with
  | nil => simp [collapseHorizWs, h]
  | cons c2 l => simp [collapseHorizWs, h]

theorem collapseHorizWs_no_tab (z : List Char) : '\t' ∉ collapseHorizWs z := by
  induction z with
  | nil => simp [collapseHorizWs]
  | cons c cs ih =>
    cases cs with
    | nil =>
      by_cases h : isHorizWs c = true
      · simp [collapseHorizWs, h]
      · have h0 : isHorizWs c = false := by simpa using h
        simp [collapseHorizWs, h0, (ne_tab_of_not_horiz h0).symm]
    | cons c2 l =>
      by_cases h1 : isHorizWs c = true
      · by_cases h2 : isHorizWs c2 = true
        · simpa [collapseHorizWs, h1, h2] using ih
        · have h2f : isHorizWs c2 = false := by simpa using h2
          simp only [collapseHorizWs, h1, h2f, Bool.false_eq_true, if_false, if_true]
          intro hmem
          rcases List.mem_cons.mp hmem with h3 | h3
          · exact absurd h3 (by decide)
          · exact ih h3
      · have h1f : isHorizWs c = false := by simpa using h1
        rw [collapseHorizWs_cons_not_ws c (c2 :: l) h1f]
        intro hmem
        rcases List.mem_cons.mp hmem with h3 | h3
        · exact (ne_tab_of_not_horiz h1f) h3.symm
        · exact ih h3

theorem collapseHorizWs_noDoubleSpace (z : List Char) :
    noDoubleSpace (collapseHorizWs z) = true := by
  induction z with
  | nil => rfl
  | cons c cs ih =>
    cases cs with
    | nil =>
      by_cases h : isHorizWs c = true <;> simp [collapseHorizWs, h, noDoubleSpace, pairwiseOk]
    | cons c2 l =>
      by_cases h1 : isHorizWs c = true
      · by_cases h2 : isHorizWs c2 = true
        · simpa [collapseHorizWs, h1, h2] using ih
        · have h2f : isHorizWs c2 = false := by simpa using h2
          have hh : collapseHorizWs (c2 :: l) = c2 :: collapseHorizWs l :=
            collapseHorizWs_cons_not_ws c2 l h2f
          have hout : collapseHorizWs (c :: c2 :: l) = ' ' :: collapseHorizWs (c2 :: l) := by
            simp [collapseHorizWs, h1, h2f]
          rw [hout, noDoubleSpace] at *
          apply pairwiseOk_cons_of_head _ ih
          intro b hb
          rw [hh, List.head?_cons, Option.some.injEq] at hb
          subst hb
          simpa using ne_space_of_not_horiz h2f
      · have h1f : isHorizWs c = false := by simpa using h1
        rw [collapseHorizWs_cons_not_ws c (c2 :: l) h1f, noDoubleSpace] at *
        apply pairwiseOk_cons_of_head _ ih
        intro b _
        simpa using Or.inl (ne_space_of_not_horiz h1f)

theorem collapseHorizWs_eq_self (z : List Char) (ht : '\t' ∉ z)
    (hd : noDoubleSpace z = true) : collapseHorizWs z = z := by
  induction z with
  | nil => rfl
  | cons c cs ih =>
    have hct : c ≠ '\t' := fun h => ht (h ▸ List.mem_cons_self c cs)
    cases cs with
    | nil =>
      by_cases h : isHorizWs c = true
      · rw [eq_space_of_horiz h hct]; rfl
      · simp [collapseHorizWs, h]
    | cons c2 l =>
      have ihr : collapseHorizWs (c2 :: l) = c2 :: l :=
        ih (fun h => ht (List.mem_cons_of_mem c h)) (pairwiseOk_tail hd)
      by_cases h1 : isHorizWs c = true
      · have hc : c = ' ' := eq_space_of_horiz h1 hct
        subst hc
        have hc2s : c2 ≠ ' ' := by
          intro h2
          subst h2
          rw [noDoubleSpace, pairwiseOk_cons_cons, Bool.and_eq_true] at hd
          simpa using hd.1
        have hc2t : c2 ≠ '\t' := fun h =>
          ht (h ▸ List.mem_cons_of_mem _ (List.mem_cons_self c2 l))
        have h2f : isHorizWs c2 = false := by
          simp [isHorizWs]
          exact ⟨hc2s, hc2t⟩
        simp [collapseHorizWs, h2f, ihr]
      · have h1f : isHorizWs c = false := by simpa using h1
        rw [collapseHorizWs_cons_not_ws c (c2 :: l) h1f, ihr]

theorem spacesThenNewline_cons_of_ne {c2 : Char} (l : List Char) (h2 : c2 ≠ ' ') :
    spacesThenNewline (c2 :: l) = (c2 == '\n') := by
  simp [spacesThenNewline, List.dropWhile_cons, h2]

theorem mem_dropSpacesBeforeNewline {x : Char} {l : List Char}
    (h : x ∈ dropSpacesBeforeNewline l) : x ∈ l := by
  induction l with
  | nil => simp [dropSpacesBeforeNewline] at h
  | cons c cs ih =>
    by_cases hc : (c == ' ' && spacesThenNewline cs) = true
    · rw [show dropSpacesBeforeNewline (c :: cs) = dropSpacesBeforeNewline cs by
        simp [dropSpacesBeforeNewline, hc]] at h
      exact List.mem_cons_of_mem c (ih h)
    · rw [show dropSpacesBeforeNewline (c :: cs) = c :: dropSpacesBeforeNewline cs by
        simp [dropSpacesBeforeNewline, hc]] at h
      rcases List.mem_cons.mp h with h1 | h1
      · exact h1 ▸ List.mem_cons_self c cs
      · exact List.mem_cons_of_mem c (ih h1)

theorem dropSpacesBeforeNewline_cons_of_ne {c : Char} (cs : List Char) (hc : c ≠ ' ') :
    dropSpacesBeforeNewline (c :: cs) = c :: dropSpacesBeforeNewline cs := by
  simp [dropSpacesBeforeNewline, hc]

theorem dropSpacesBeforeNewline_eq_self (z : List Char) (hd : noDoubleSpace z = true)
    (hb : noSpaceBeforeNl z = true) : dropSpacesBeforeNewline z = z := by
  induction z with
  | nil => rfl
  | cons c cs ih =>
    have hcond : (c == ' ' && spacesThenNewline cs) = false := by
      by_cases hc : c = ' '
      · subst hc
        cases cs with
        | nil => simp [spacesThenNewline]
        | cons c2 l =>
          have h2 : c2 ≠ ' ' := by
            intro h2; subst h2
            rw [noDoubleSpace, pairwiseOk_cons_cons, Bool.and_eq_true] at hd
            simpa using hd.1
          have hn : c2 ≠ '\n' := by
            intro hn; subst hn
            rw [noSpaceBeforeNl, pairwiseOk_cons_cons, Bool.and_eq_true] at hb
            simpa using hb.1
          simp [spacesThenNewline_cons_of_ne l h2, hn]
      · simp [hc]
    simp [dropSpacesBeforeNewline, hcond, ih (pairwiseOk_tail hd) (pairwiseOk_tail hb)]

theorem dropSpacesBeforeNewline_noDoubleSpace (z : List Char) (hd : noDoubleSpace z = true) :
    noDoubleSpace (dropSpacesBeforeNewline z) = true := by
  induction z with
  | nil => rfl
  | cons c cs ih =>
    have ih2 := ih (pairwiseOk_tail hd)
    by_cases hcond : (c == ' ' && spacesThenNewline cs) = true
    · rw [show dropSpacesBeforeNewline (c :: cs) = dropSpacesBeforeNewline cs by
        simp [dropSpacesBeforeNewline, hcond]]
      exact ih2
    · rw [show dropSpacesBeforeNewline (c :: cs) = c :: dropSpacesBeforeNewline cs by
        simp [dropSpacesBeforeNewline, hcond]]
      rw [noDoubleSpace] at *
      apply pairwiseOk_cons_of_head _ ih2
      intro b hbh
      by_cases hc : c = ' '
      · subst hc
        cases cs with
        | nil => simp [dropSpacesBeforeNewline] at hbh
        | cons c2 l =>
          have h2 : c2 ≠ ' ' := by
            intro h2; subst h2
            rw [pairwiseOk_cons_cons, Bool.and_eq_true] at hd
            simpa using hd.1
          rw [dropSpacesBeforeNewline_cons_of_ne l h2, List.head?_cons,
            Option.some.injEq] at hbh
          subst hbh
          simpa using h2
      · simpa using Or.inl hc

theorem dropSpacesBeforeNewline_noSpaceBeforeNl (z : List Char) (hd : noDoubleSpace z = true) :
    noSpaceBeforeNl (dropSpacesBeforeNewline z) = true := by
  induction z with
  | nil => rfl
  | cons c cs ih =>
    have ih2 := ih (pairwiseOk_tail hd)
    by_cases hcond : (c == ' ' && spacesThenNewline cs) = true
    · rw [show dropSpacesBeforeNewline (c :: cs) = dropSpacesBeforeNewline cs by
        simp [dropSpacesBeforeNewline, hcond]]
      exact ih2
    · rw [show dropSpacesBeforeNewline (c :: cs) = c :: dropSpacesBeforeNewline cs by
        simp [dropSpacesBeforeNewline, hcond]]
      rw [noSpaceBeforeNl] at *
      apply pairwiseOk_cons_of_head _ ih2
      intro b hbh
      by_cases hc : c = ' '
      · subst hc
        cases cs with
        | nil => simp [dropSpacesBeforeNewline] at hbh
        | cons c2 l =>
          have h2 : c2 ≠ ' ' := by
            intro h2; subst h2
            rw [noDoubleSpace, pairwiseOk_cons_cons, Bool.and_eq_true] at hd
            simpa using hd.1
          rw [dropSpacesBeforeNewline_cons_of_ne l h2, List.head?_cons,
            Option.some.injEq] at hbh
          subst hbh
          have hn : c2 ≠ '\n' := by
            intro hn
            rw [spacesThenNewline_cons_of_ne l h2, hn] at hcond
            simp at hcond
          simpa using hn
      · simpa using Or.inl hc

theorem dropSpacesAfterNewline_false_cons (c : Char) (cs : List Char) :
    dropSpacesAfterNewline false (c :: cs) = c :: dropSpacesAfterNewline (c == '\n') cs := by
  simp [dropSpacesAfterNewline]

theorem dropSpacesAfterNewline_false_head (cs : List Char) :
    (dropSpacesAfterNewline false cs).head? = cs.head? := by
  cases cs with
  | nil => rfl
  | cons c l => rw [dropSpacesAfterNewline_false_cons]; rfl

theorem mem_dropSpacesAfterNewline {x : Char} {l : List Char} :
    ∀ flag, x ∈ dropSpacesAfterNewline flag l → x ∈ l := by
  induction l with
  | nil => intro flag h; simp [dropSpacesAfterNewline] at h
  | cons c cs ih =>
    intro flag h
    by_cases hsk : (flag && c == ' ') = true
    · rw [show dropSpacesAfterNewline flag (c :: cs) = dropSpacesAfterNewline true cs by
        have h1 : flag = true := by
          cases flag
          · simp at hsk
          · rfl
        subst h1
        simp [dropSpacesAfterNewline, hsk]] at h
      exact List.mem_cons_of_mem c (ih true h)
    · rw [show dropSpacesAfterNewline flag (c :: cs)
          = c :: dropSpacesAfterNewline (c == '\n') cs by
        simp [dropSpacesAfterNewline, hsk]] at h
      rcases List.mem_cons.mp h with h1 | h1
      · exact h1 ▸ List.mem_cons_self c cs
      · exact List.mem_cons_of_mem c (ih _ h1)

theorem head_dropSpacesAfterNewline_true (cs : List Char) :
    ∀ b, (dropSpacesAfterNewline true cs).head? = some b → b ≠ ' ' := by
  induction cs with
  | nil => intro b hb; simp [dropSpacesAfterNewline] at hb
  | cons c l ih =>
    intro b hb
    by_cases hc : c = ' '
    · subst hc
      rw [show dropSpacesAfterNewline true (' ' :: l) = dropSpacesAfterNewline true l by
        simp [dropSpacesAfterNewline]] at hb
      exact ih b hb
    · rw [show dropSpacesAfterNewline true (c :: l)
          = c :: dropSpacesAfterNewline (c == '\n') l by
        simp [dropSpacesAfterNewline, hc], List.head?_cons, Option.some.injEq] at hb
      exact hb ▸ hc

theorem dropSpacesAfterNewline_eq_self (z : List Char) (ha : noSpaceAfterNl z = true) :
    ∀ flag, (flag = true → ∀ b, z.head? = some b → b ≠ ' ') →
      dropSpacesAfterNewline flag z = z := by
  induction z with
  | nil => intro flag _; rfl
  | cons c cs ih =>
    intro flag hf
    have hcnd : (flag && c == ' ') = false := by
      cases flag with
      | false => rfl
      | true => simpa using hf rfl c rfl
    rw [show dropSpacesAfterNewline flag (c :: cs)
        = c :: dropSpacesAfterNewline (c == '\n') cs by
      simp [dropSpacesAfterNewline, hcnd]]
    congr 1
    apply ih (pairwiseOk_tail ha)
    intro hcn b hb
    have hcn' : c = '\n' := by simpa using hcn
    have := pairwiseOk_head ha hb
    rw [hcn'] at this
    simpa using this

theorem dropSpacesAfterNewline_props (z : List Char) (hd : noDoubleSpace z = true)
    (hb : noSpaceBeforeNl z = true) :
    ∀ flag, noSpaceAfterNl (dropSpacesAfterNewline flag z) = true ∧
      noDoubleSpace (dropSpacesAfterNewline flag z) = true ∧
      noSpaceBeforeNl (dropSpacesAfterNewline flag z) = true := by
  induction z with
  | nil => intro flag; exact ⟨rfl, rfl, rfl⟩
  | cons c cs ih =>
    intro flag
    have ih2 := ih (pairwiseOk_tail hd) (pairwiseOk_tail hb)
    by_cases hsk : (flag && c == ' ') = true
    · rw [show dropSpacesAfterNewline flag (c :: cs) = dropSpacesAfterNewline true cs by
        have h1 : flag = true := by
          cases flag
          · simp at hsk
          · rfl
        subst h1
        simp [dropSpacesAfterNewline, hsk]]
      exact ih2 true
    · rw [show dropSpacesAfterNewline flag (c :: cs)
          = c :: dropSpacesAfterNewline (c == '\n') cs by
        simp [dropSpacesAfterNewline, hsk]]
      obtain ⟨i1, i2, i3⟩ := ih2 (c == '\n')
      rw [noSpaceAfterNl, noDoubleSpace, noSpaceBeforeNl] at *
      refine ⟨pairwiseOk_cons_of_head ?_ i1, pairwiseOk_cons_of_head ?_ i2,
        pairwiseOk_cons_of_head ?_ i3⟩ <;> intro b hbh
      · -- no space after newline at the junction
        by_cases hcn : c = '\n'
        · subst hcn
          have hbs : b ≠ ' ' := head_dropSpacesAfterNewline_true cs b (by simpa using hbh)
          simpa using hbs
        · simpa using Or.inl hcn
      · -- no double space at the junction
        by_cases hc : c = ' '
        · subst hc
          rw [show ((' ' : Char) == '\n') = false by decide,
            dropSpacesAfterNewline_false_head] at hbh
          have := pairwiseOk_head hd hbh
          simpa using this
        · simpa using Or.inl hc
      · -- no space before newline at the junction
        by_cases hc : c = ' '
        · subst hc
          rw [show ((' ' : Char) == '\n') = false by decide,
            dropSpacesAfterNewline_false_head] at hbh
          have := pairwiseOk_head hb hbh
          simpa using this
        · simpa using Or.inl hc

theorem pairwiseOk_dropWhile (p : Char → Char → Bool) (q : Char → Bool) (l : List Char)
    (h : pairwiseOk p l = true) : pairwiseOk p (l.dropWhile q) = true := by
  induction l with
  | nil => rfl
  | cons c cs ih =>
    by_cases hq : q c = true
    · rw [List.dropWhile_cons, if_pos hq]
      exact ih (pairwiseOk_tail h)
    · rw [List.dropWhile_cons, if_neg hq]
      exact h

theorem stripRight_head (l : List Char) (h : stripRight l ≠ []) :
    (stripRight l).head? = l.head? := by
  cases l with
  | nil => simp [stripRight] at h
  | cons c cs =>
    cases hs : stripRight cs with
    | nil =>
      by_cases hw : isPyWhitespace c = true
      · rw [show stripRight (c :: cs) = [] by simp [stripRight, hs, hw]] at h
        exact absurd rfl h
      · rw [show stripRight (c :: cs) = [c] by simp [stripRight, hs, hw]]
        rfl
    | cons r rs =>
      rw [show stripRight (c :: cs) = c :: r :: rs by simp [stripRight, hs]]
      rfl

theorem mem_stripRight {x : Char} {l : List Char} (h : x ∈ stripRight l) : x ∈ l := by
  induction l with
  | nil => simp [stripRight] at h
  | cons c cs ih =>
    cases hs : stripRight cs with
    | nil =>
      by_cases hw : isPyWhitespace c = true
      · rw [show stripRight (c :: cs) = [] by simp [stripRight, hs, hw]] at h
        simp at h
      · rw [show stripRight (c :: cs) = [c] by simp [stripRight, hs, hw]] at h
        have hx : x = c := List.mem_singleton.mp h
        subst hx
        exact List.mem_cons_self _ _
    | cons r rs =>
      rw [show stripRight (c :: cs) = c :: r :: rs by simp [stripRight, hs]] at h
      rcases List.mem_cons.mp h with h1 | h1
      · exact h1 ▸ List.mem_cons_self c cs
      · exact List.mem_cons_of_mem c (ih (by rw [hs]; exact h1))

theorem pairwiseOk_stripRight (p : Char → Char → Bool) (l : List Char)
    (h : pairwiseOk p l = true) : pairwiseOk p (stripRight l) = true := by
  induction l with
  | nil => rfl
  | cons c cs ih =>
    have ih2 := ih (pairwiseOk_tail h)
    cases hs : stripRight cs with
    | nil =>
      by_cases hw : isPyWhitespace c = true
      · rw [show stripRight (c :: cs) = [] by simp [stripRight, hs, hw]]; rfl
      · rw [show stripRight (c :: cs) = [c] by simp [stripRight, hs, hw]]; rfl
    | cons r rs =>
      rw [show stripRight (c :: cs) = c :: r :: rs by simp [stripRight, hs]]
      rw [hs] at ih2
      apply pairwiseOk_cons_of_head _ ih2
      intro b hbh
      rw [List.head?_cons, Option.some.injEq] at hbh
      subst hbh
      have hcs : cs.head? = some r := by
        rw [← stripRight_head cs (by rw [hs]; exact List.cons_ne_nil r rs), hs]
        rfl
      exact pairwiseOk_head h hcs

theorem getLast_stripRight_not_ws (l : List Char) :
    ∀ b, (stripRight l).getLast? = some b → isPyWhitespace b = false := by
  induction l with
  | nil => intro b hb; simp [stripRight] at hb
  | cons c cs ih =>
    intro b hb
    cases hs : stripRight cs with
    | nil =>
      by_cases hw : isPyWhitespace c = true
      · rw [show stripRight (c :: cs) = [] by simp [stripRight, hs, hw]] at hb
        simp at hb
      · rw [show stripRight (c :: cs) = [c] by simp [stripRight, hs, hw]] at hb
        simp at hb
        subst hb
        simpa using hw
    | cons r rs =>
      rw [show stripRight (c :: cs) = c :: r :: rs by simp [stripRight, hs]] at hb
      rw [List.getLast?_cons_cons] at hb
      exact ih b (by rw [hs]; exact hb)

theorem head_dropWhile_not (q : Char → Bool) (l : List Char) :
    ∀ b, (l.dropWhile q).head? = some b → q b = false := by
  induction l with
  | nil => intro b hb; simp at hb
  | cons c cs ih =>
    intro b hb
    by_cases hq : q c = true
    · rw [List.dropWhile_cons, if_pos hq] at hb
      exact ih b hb
    · rw [List.dropWhile_cons, if_neg hq, List.head?_cons, Option.some.injEq] at hb
      subst hb
      simpa using hq

theorem dropWhile_eq_self_of_head (q : Char → Bool) (l : List Char)
    (h : ∀ b, l.head? = some b → q b = false) : l.dropWhile q = l := by
  cases l with
  | nil => rfl
  | cons c cs => rw [List.dropWhile_cons, if_neg (by simp [h c rfl])]

theorem stripRight_cons_of_ne (c : Char) (cs : List Char) (h : stripRight cs ≠ []) :
    stripRight (c :: cs) = c :: stripRight cs := by
  cases hs : stripRight cs with
  | nil => exact absurd hs h
  | cons r rs => simp [stripRight, hs]

theorem stripRight_eq_self (l : List Char)
    (h : ∀ b, l.getLast? = some b → isPyWhitespace b = false) : stripRight l = l := by
  induction l with
  | nil => rfl
  | cons c cs ih =>
    cases cs with
    | nil => simp [stripRight, h c rfl]
    | cons c2 l2 =>
      have ihr : stripRight (c2 :: l2) = c2 :: l2 :=
        ih (fun b hb => h b (by rw [List.getLast?_cons_cons]; exact hb))
      rw [stripRight_cons_of_ne c (c2 :: l2) (by rw [ihr]; exact List.cons_ne_nil _ _), ihr]

theorem wsPhase_props (z : List Char) :
    noDoubleSpace (wsPhase z) = true ∧ noSpaceBeforeNl (wsPhase z) = true ∧
      noSpaceAfterNl (wsPhase z) = true ∧ '\t' ∉ wsPhase z ∧
      (∀ b, (wsPhase z).head? = some b → isPyWhitespace b = false) ∧
      (∀ b, (wsPhase z).getLast? = some b → isPyWhitespace b = false) := by
  have h1 := collapseHorizWs_noDoubleSpace z
  have hA1 := dropSpacesBeforeNewline_noDoubleSpace _ h1
  have hA2 := dropSpacesBeforeNewline_noSpaceBeforeNl _ h1
  obtain ⟨hB1, hB2, hB3⟩ := dropSpacesAfterNewline_props _ hA1 hA2 false
  have htab : '\t' ∉ dropSpacesAfterNewline false (dropSpacesBeforeNewline (collapseHorizWs z)) :=
    fun hm => collapseHorizWs_no_tab z
      (mem_dropSpacesBeforeNewline (mem_dropSpacesAfterNewline false hm))
  simp only [wsPhase, pyStrip, collapseSpacesAroundNewlines] at *
  simp only [noDoubleSpace, noSpaceBeforeNl, noSpaceAfterNl] at hB1 hB2 hB3 ⊢
  refine ⟨pairwiseOk_stripRight _ _ (pairwiseOk_dropWhile _ _ _ hB2),
    pairwiseOk_stripRight _ _ (pairwiseOk_dropWhile _ _ _ hB3),
    pairwiseOk_stripRight _ _ (pairwiseOk_dropWhile _ _ _ hB1), ?_, ?_, ?_⟩
  · intro hm
    exact htab ((List.dropWhile_sublist _).subset (mem_stripRight hm))
  · intro b hb
    have hne : stripRight (List.dropWhile isPyWhitespace
        (dropSpacesAfterNewline false (dropSpacesBeforeNewline (collapseHorizWs z)))) ≠ [] := by
      intro he; rw [he] at hb; simp at hb
    rw [stripRight_head _ hne] at hb
    exact head_dropWhile_not _ _ b hb
  · exact getLast_stripRight_not_ws _

theorem wsPhase_idem (z : List Char) : wsPhase (wsPhase z) = wsPhase z := by
  obtain ⟨hd, hb, ha, ht, hh, hl⟩ := wsPhase_props z
  have h1 : collapseHorizWs (wsPhase z) = wsPhase z := collapseHorizWs_eq_self _ ht hd
  have h2 : dropSpacesBeforeNewline (wsPhase z) = wsPhase z :=
    dropSpacesBeforeNewline_eq_self _ hd hb
  have h3 : dropSpacesAfterNewline false (wsPhase z) = wsPhase z :=
    dropSpacesAfterNewline_eq_self _ ha false (fun h => Bool.noConfusion h)
  have h4 : pyStrip (wsPhase z) = wsPhase z := by
    rw [pyStrip, dropWhile_eq_self_of_head _ _ hh, stripRight_eq_self _ hl]
  show pyStrip (collapseSpacesAroundNewlines (collapseHorizWs (wsPhase z))) = wsPhase z
  rw [h1, collapseSpacesAroundNewlines, h2, h3, h4]

theorem collapseLineBreaks_eq_self (l : List Char) (hr : '\r' ∉ l) (hn : '\n' ∉ l) :
    collapseLineBreaks l = l := by
  induction l with
  | nil => rfl
  | cons c cs ih =>
    have hcr : c ≠ '\r' := fun h => hr (h ▸ List.mem_cons_self c cs)
    have hcn : c ≠ '\n' := fun h => hn (h ▸ List.mem_cons_self c cs)
    have ihr := ih (fun h => hr (List.mem_cons_of_mem c h))
      (fun h => hn (List.mem_cons_of_mem c h))
    cases cs with
    | nil => simp [collapseLineBreaks, hcr, hcn]
    | cons c2 l2 => simp [collapseLineBreaks, hcr, hcn, ihr]

theorem applyWordOverrides_eq_self (ov : List (List Char × List Char)) (y : List Char)
    (h : ∀ p ∈ ov, subRule (overrideRule p.1 p.2) y = y) :
    applyWordOverrides ov y = y := by
  induction ov with
  | nil => rfl
  | cons p rest ih =>
    obtain ⟨o, r⟩ := p
    have happ : (if !o.isEmpty && !r.isEmpty then subRule (overrideRule o r) y else y) = y := by
      split

      · exact h (o, r) (List.mem_cons_self _ _)
      · rfl
    show applyWordOverrides rest (if !o.isEmpty && !r.isEmpty
      then subRule (overrideRule o r) y else y) = y
    rw [happ]
    exact ih (fun q hq => h q (List.mem_cons_of_mem _ hq))

theorem foldl_subRule_eq_self (rs : List SubRule) (y : List Char)
    (h : ∀ r ∈ rs, subRule r y = y) :
    rs.foldl (fun acc r => subRule r acc) y = y := by
  induction rs with
  | nil => rfl
  | cons r rest ih =>
    rw [List.foldl_cons, h r (List.mem_cons_self _ _)]
    exact ih (fun q hq => h q (List.mem_cons_of_mem _ hq))

/-! ## Claim theorems -/

/-- C10: a word-override entry whose original phrase or whose
replacement is the empty string is silently skipped — for every input
text and every override table, applying the table equals applying the
table with all such entries removed, so an override can never delete a
phrase by mapping it to the empty string. -/
theorem C10_empty_override_entries_skipped
    (ov : List (List Char × List Char)) (t : List Char) :
    applyWordOverrides ov t
      = applyWordOverrides (ov.filter (fun p => !p.1.isEmpty && !p.2.isEmpty)) t := by
  induction ov generalizing t with
  | nil => rfl
  | cons p rest ih =>
    obtain ⟨o, r⟩ := p
    by_cases h : (!o.isEmpty && !r.isEmpty) = true
    · simpa [applyWordOverrides, List.filter_cons, h] using ih (subRule (overrideRule o r) t)
    · simpa [applyWordOverrides, List.filter_cons, h] using ih t

/-- C9: the watcher's bound key chord is never empty — parsing any
key-specification string yields a non-empty key set (falling back to
F12, code 88, when nothing parses), and this holds at construction and
after every `update_shortcut`. -/
theorem C9_chord_never_empty :
    (∀ s : List Char, parseKeyCombination s ≠ []) ∧
    (∀ s : List Char, (mkGlobalShortcuts s).targetKeys ≠ []) ∧
    (∀ (st : GlobalShortcutsState) (k : List Char), (updateShortcut st k).targetKeys ≠ []) := by
  have h : ∀ s : List Char, parseKeyCombination s ≠ [] := by
    intro s
    simp only [parseKeyCombination]
    split
    · simp
    · simp_all [List.isEmpty_iff]
  exact ⟨h, fun s => h s, fun st k => h k⟩

/-- C3 (counterexample): the normalizer does not turn
`"open paren hello close paren"` into `"(hello)"` — the spaces
separating the spoken phrases from `hello` survive substitution. -/
theorem C3_counterexample :
    preprocessText [] (("open paren hello close paren").toList) ≠ ("(hello)").toList := by
  decide

/-- C3 (amended): for the spec's example, each trigger phrase becomes
its literal character but the separating spaces are preserved:
`normalize("open paren hello close paren") = "( hello )"`. -/
theorem C3_amended_literal_chars_with_spaces :
    preprocessText [] (("open paren hello close paren").toList) = ("( hello )").toList := by
  decide

/-- C4: the claim is right and the code is wrong — the rule is written
`r'\new line\b'` (a literal newline, then `ew line`; a typo for
`r'\bnew line\b'`), and since step 1 turns every newline into a space
the pattern can never match: `normalize("new line")` returns
`"new line"` unchanged and contains no newline character, where the
spec requires a literal newline in its place. -/
theorem C4_new_line_phrase_not_replaced :
    preprocessText [] (("new line").toList) = ("new line").toList ∧
    '\n' ∉ preprocessText [] (("new line").toList) := by
  decide

/-- C8: word overrides are applied before the built-in phrase rules —
with the override table mapping `"period"` to `"dot"`,
`normalize("say period")` yields `"say dot"`, not `"say ."`. -/
theorem C8_overrides_before_builtin_rules :
    preprocessText [(("period").toList, ("dot").toList)] (("say period").toList)
        = ("say dot").toList ∧
    preprocessText [(("period").toList, ("dot").toList)] (("say period").toList)
        ≠ ("say .").toList := by
  decide

/-- C7: for an absent audio buffer, or one with fewer than 1600 samples
at the 16 kHz rate (which covers zero samples), `transcribe_audio`
returns the empty string as a normal result (`.ok`, not an error) and
never invokes the external backend. -/
theorem C7_short_audio_is_silent_noop (audioData : Option Nat)
    (h : ∀ n, audioData = some n → n < 1600) (saveOk : Bool) (b : BackendBehavior) :
    transcribeAudio true audioData 16000 saveOk b = (.ok [], false, ⟨false, false⟩) := by
  cases audioData with
  | none => rfl
  | some n =>
    have hn : n < 1600 := h n rfl
    by_cases h0 : n = 0
    · subst h0; rfl
    · have h0b : (n == 0) = false := by simp [h0]
      have hlt : n < minSamples 16000 := hn
      simp [transcribeAudio, h0b, hlt]

theorem C7_witness :
    transcribeAudio true (some 100) 16000 true ⟨.timedOut, true, []⟩
      = (.ok [], false, ⟨false, false⟩) :=
  C7_short_audio_is_silent_noop (some 100)
    (by intro n hn; cases hn; decide) true ⟨.timedOut, true, []⟩

/-- C5 (counterexample): on a timeout where the backend had already
produced its output artifact, `transcribe_audio` leaves the `.txt`
artifact on disk — it is only deleted on the success path. -/
theorem C5_counterexample :
    (transcribeAudio true (some 16000) 16000 true
      ⟨.timedOut, true, ("x").toList⟩).2.2.txtExists = true := by
  rfl

/-- C5 (amended): the temporary WAV file is deleted on every exit path
of `transcribe_audio` (success, non-zero exit, timeout, save
exception); the backend's `.txt` output artifact, however, is only
guaranteed gone on the successful backend run (where it is read and
unlinked, or was never produced) — on timeout/failure paths a produced
artifact remains. -/
theorem C5_wav_always_deleted_txt_only_on_success (ready : Bool) (audioData : Option Nat)
    (sampleRate : Nat) (saveOk : Bool) (b : BackendBehavior) :
    (transcribeAudio ready audioData sampleRate saveOk b).2.2.wavExists = false ∧
    (∀ stdout, b.outcome = .completed 0 stdout →
      (transcribeAudio ready audioData sampleRate saveOk b).2.2.txtExists = false) := by
  constructor
  · cases ready with
    | false => rfl
    | true =>
      cases audioData with
      | none => rfl
      | some len =>
        by_cases h0 : (len == 0) = true
        · simp [transcribeAudio, h0]
        · by_cases h1 : len < minSamples sampleRate
          · simp [transcribeAudio, h0, h1]
          · cases saveOk with
            | false => simp [transcribeAudio, h0, h1]
            | true => simp [transcribeAudio, h0, h1]
  · intro stdout ho
    cases ready with
    | false => rfl
    | true =>
      cases audioData with
      | none => rfl
      | some len =>
        by_cases h0 : (len == 0) = true
        · simp [transcribeAudio, h0]
        · by_cases h1 : len < minSamples sampleRate
          · simp [transcribeAudio, h0, h1]
          · cases saveOk with
            | false => simp [transcribeAudio, h0, h1]
            | true =>
              cases hp : b.producesTxt with
              | false => simp [transcribeAudio, runWhisper, h0, h1, ho, hp]
              | true => simp [transcribeAudio, runWhisper, h0, h1, ho, hp]

theorem C5_witness :
    (transcribeAudio true (some 16000) 16000 true
        ⟨.completed 0 [], true, []⟩).2.2.wavExists = false ∧
    (transcribeAudio true (some 16000) 16000 true
        ⟨.completed 0 [], true, []⟩).2.2.txtExists = false :=
  ⟨(C5_wav_always_deleted_txt_only_on_success true (some 16000) 16000 true
      ⟨.completed 0 [], true, []⟩).1,
   (C5_wav_always_deleted_txt_only_on_success true (some 16000) 16000 true
      ⟨.completed 0 [], true, []⟩).2 [] rfl⟩

/-- C1 (counterexample): after trigger–trigger the processing chain of
the second trigger is still active (`activeChains = 1`), and a third
trigger is not a no-op — it finds `is_recording == False`, flips it to
`True` and starts a second recording (`recordingsStarted` goes from 1
to 2). -/
theorem C1_counterexample :
    runCtrl [.trigger, .trigger] = ⟨false, true, 1, 1, 1⟩ ∧
    runCtrl [.trigger, .trigger, .trigger] = ⟨true, true, 1, 2, 1⟩ := by
  decide

/-- C1 (amended): a trigger while in Processing starts a new recording
rather than being ignored, but the `is_processing` guard in
`_process_audio` does enforce at most one active processing chain: for
every event trace, at most one chain is executing. -/
theorem C1_at_most_one_processing_chain (evs : List CtrlEvent) :
    (runCtrl evs).activeChains ≤ 1 := by
  suffices h : ∀ (l : List CtrlEvent) (s : AppState),
      s.activeChains ≤ 1 → s.isProcessing = (s.activeChains == 1) →
      (l.foldl ctrlStep s).activeChains ≤ 1 ∧
        (l.foldl ctrlStep s).isProcessing = ((l.foldl ctrlStep s).activeChains == 1) by
    exact (h evs initAppState (by decide) (by decide)).1
  intro l
  induction l with
  | nil => intro s h1 h2; exact ⟨h1, h2⟩
  | cons e rest ih =>
    intro s h1 h2
    refine ih (ctrlStep s e) ?_ ?_ <;>
    · obtain ⟨rec, proc, ac, rs, cs⟩ := s
      cases e with
      | trigger =>
        cases rec <;> cases proc <;>
          simp_all [ctrlStep, startRecordingStep, stopRecordingStep, processAudioBegin] <;>
          omega
      | chainDone =>
        cases proc <;> simp_all [ctrlStep]

/-- C6: with bound chord `{a, b}`, the sequence press(a), press(b)
fires the trigger exactly once (at `t2`); a second completion of the
chord strictly less than the 500 ms debounce interval after that
firing does not fire; a completion after the interval has elapsed
fires again — overall exactly the two firings at `t2` and `t6`. -/
theorem C6_chord_fires_once_with_debounce (a b : Nat) (t1 t2 t3 t4 t5 t6 : ℚ)
    (hab : a ≠ b)
    (h2 : debounceTime < t2)
    (h4 : t4 - t2 < debounceTime)
    (h6 : debounceTime < t6 - t2) :
    (runEvents [a, b] [.down a t1, .down b t2, .up a t2, .up b t2,
      .down a t3, .down b t4, .up a t4, .up b t4,
      .down a t5, .down b t6]).fires = [t2, t6] := by
  have hba : b ≠ a := hab.symm
  have h2d : (1 : ℚ) / 2 < t2 - 0 := by simpa [debounceTime] using h2
  have h4d : t4 - t2 < (1 : ℚ) / 2 := by simpa [debounceTime] using h4
  have h6d : (1 : ℚ) / 2 < t6 - t2 := by simpa [debounceTime] using h6
  have s1 : processEvent [a, b] initChordState (.down a t1) = ⟨[a], 0, []⟩ := by
    simp [processEvent, checkShortcutCombination, insertKey, initChordState, hba]
  have s2 : processEvent [a, b] ⟨[a], 0, []⟩ (.down b t2) = ⟨[b, a], t2, [t2]⟩ := by
    simp [processEvent, checkShortcutCombination, insertKey, debounceTime, hba]
    linarith [h2d]
  have s3 : processEvent [a, b] ⟨[b, a], t2, [t2]⟩ (.up a t2) = ⟨[b], t2, [t2]⟩ := by
    simp [processEvent, hab, hba]
  have s4 : processEvent [a, b] ⟨[b], t2, [t2]⟩ (.up b t2) = ⟨[], t2, [t2]⟩ := by
    simp [processEvent]
  have s5 : processEvent [a, b] ⟨[], t2, [t2]⟩ (.down a t3) = ⟨[a], t2, [t2]⟩ := by
    simp [processEvent, checkShortcutCombination, insertKey, hba]
  have s6 : processEvent [a, b] ⟨[a], t2, [t2]⟩ (.down b t4) = ⟨[b, a], t2, [t2]⟩ := by
    simp [processEvent, checkShortcutCombination, insertKey, debounceTime, hba]
    linarith [h4d]
  have s7 : processEvent [a, b] ⟨[b, a], t2, [t2]⟩ (.up a t4) = ⟨[b], t2, [t2]⟩ := by
    simp [processEvent, hab, hba]
  have s8 : processEvent [a, b] ⟨[b], t2, [t2]⟩ (.up b t4) = ⟨[], t2, [t2]⟩ := by
    simp [processEvent]
  have s9 : processEvent [a, b] ⟨[], t2, [t2]⟩ (.down a t5) = ⟨[a], t2, [t2]⟩ := by
    simp [processEvent, checkShortcutCombination, insertKey, hba]
  have s10 : processEvent [a, b] ⟨[a], t2, [t2]⟩ (.down b t6)
      = ⟨[b, a], t6, [t2, t6]⟩ := by
    simp [processEvent, checkShortcutCombination, insertKey, debounceTime, hba]
    linarith [h6d]
  simp only [runEvents, List.foldl_cons, List.foldl_nil, s1, s2, s3, s4, s5, s6, s7, s8,
    s9, s10]

theorem C6_witness :
    debounceTime < (1 : ℚ) ∧ (5 / 4 : ℚ) - 1 < debounceTime ∧ debounceTime < (2 : ℚ) - 1 ∧
    (runEvents [30, 48] [.down 30 1, .down 48 1, .up 30 1, .up 48 1,
      .down 30 (5 / 4), .down 48 (5 / 4), .up 30 (5 / 4), .up 48 (5 / 4),
      .down 30 2, .down 48 2]).fires = [1, 2] :=
  ⟨by norm_num [debounceTime], by norm_num [debounceTime], by norm_num [debounceTime],
    C6_chord_fires_once_with_debounce 30 48 1 1 (5 / 4) (5 / 4) 2 2 (by decide)
      (by norm_num [debounceTime]) (by norm_num [debounceTime])
      (by norm_num [debounceTime])⟩

set_option maxRecDepth 8192 in
/-- C2 (counterexample): the normalizer is not idempotent.  With the
empty override table, `normalize("question  mark")` (two spaces)
leaves the phrase rules unmatched and the whitespace collapse merges
the spaces, producing `"question mark"` — which a second pass rewrites
to `"?"`. -/
theorem C2_counterexample :
    preprocessText [] (preprocessText [] (("question  mark").toList))
      ≠ preprocessText [] (("question  mark").toList) := by
  decide

/-- C2 (amended): the normalizer is idempotent on inputs whose
normalized form is free of the triggering phrases: if
`normalize(x)` contains no carriage return or newline, no whole-word
occurrence of any override original, and no occurrence of any built-in
rule pattern (each stated as substitution leaving the text unchanged),
then `normalize(normalize(x)) = normalize(x)`. -/
theorem C2_amended_idempotent_on_trigger_free (ov : List (List Char × List Char))
    (x : List Char)
    (hcr : '\r' ∉ preprocessText ov x) (hnl : '\n' ∉ preprocessText ov x)
    (hov : ∀ p ∈ ov, subRule (overrideRule p.1 p.2) (preprocessText ov x)
      = preprocessText ov x)
    (hrules : ∀ r ∈ builtinReplacements, subRule r (preprocessText ov x)
      = preprocessText ov x) :
    preprocessText ov (preprocessText ov x) = preprocessText ov x := by
  have hx : preprocessText ov x
      = wsPhase (builtinReplacements.foldl (fun acc r => subRule r acc)
          (applyWordOverrides ov (collapseLineBreaks x))) := rfl
  have hstep : preprocessText ov (preprocessText ov x)
      = wsPhase (preprocessText ov x) := by
    show wsPhase (builtinReplacements.foldl (fun acc r => subRule r acc)
        (applyWordOverrides ov (collapseLineBreaks (preprocessText ov x))))
      = wsPhase (preprocessText ov x)
    rw [collapseLineBreaks_eq_self _ hcr hnl, applyWordOverrides_eq_self ov _ hov,
      foldl_subRule_eq_self builtinReplacements _ hrules]
  rw [hstep, hx, wsPhase_idem, ← hx]

theorem C2_witness :
    preprocessText [] (preprocessText [] (("hello world").toList))
      = preprocessText [] (("hello world").toList) :=
  C2_amended_idempotent_on_trigger_free [] (("hello world").toList)
    (by decide) (by decide) (by decide) (by decide)

end Hyprwhspr
